import Mathlib

/-!
Verification development for the mongodol repository (src/mongodol).

The embedding models the code of `base.py`, `util.py`, `trans.py` and
`stores.py`: documents are insertion-ordered association lists from string
field names to values (Python dicts preserve insertion order), a collection
is a list of documents, and the pymongo collaborator (find / replace_one /
delete_one / delete_many / insert_one / insert_many, literal-equality filter
matching, flat field projections) is modelled per its documented behaviour,
which is how the code under verification uses it.
-/

namespace Mongodol

/-- A BSON-like value: scalar or embedded document (ordered field list). -/
inductive MVal where
  | int (n : Int)
  | str (s : String)
  | bool (b : Bool)
  | doc (d : List (String × MVal))

/-- A document: an insertion-ordered mapping from field names to values,
as a Python dict / BSON document. -/
abbrev Doc := List (String × MVal)

mutual

/-- Structural equality of values; embedded documents compare field-by-field
in order, which is how the mongo backend compares embedded documents. -/
def MVal.beq : MVal → MVal → Bool
  | .int a, .int b => a == b
  | .str a, .str b => a == b
  | .bool a, .bool b => a == b
  | .doc a, .doc b => MVal.beqFields a b
  | _, _ => false

/-- Field-list equality used by `MVal.beq` on embedded documents. -/
def MVal.beqFields : List (String × MVal) → List (String × MVal) → Bool
  | [], [] => true
  | (k1, v1) :: r1, (k2, v2) :: r2 =>
      k1 == k2 && MVal.beq v1 v2 && MVal.beqFields r1 r2
  | _, _ => false

end

/-- Python truthiness of a value (used by `normalize_result` on
`raw_result.inserted_id`). -/
def MVal.truthy : MVal → Bool
  | .int n => n != 0
  | .str s => s != ""
  | .bool b => b
  | .doc d => !d.isEmpty

/-- Lookup in an association list (Python `d[k]` / `d.get(k)`). -/
def assocGet {α : Type} : List (String × α) → String → Option α
  | [], _ => none
  | (k1, v) :: rest, k => if k1 == k then some v else assocGet rest k

/-- Python dict single-entry update: replace in place if the key exists
(keeping its position), else append (Python 3.7+ dict semantics). -/
def assocSet {α : Type} : List (String × α) → String → α → List (String × α)
  | [], k, v => [(k, v)]
  | (k1, v1) :: rest, k, v =>
      if k1 == k then (k1, v) :: rest else (k1, v1) :: assocSet rest k v

/-- Python `dict(d, **e)`: start from `d` and update with each entry of `e`. -/
def dictUpdate (d e : Doc) : Doc :=
  e.foldl (fun acc p => assocSet acc p.1 p.2) d

/-- `MongoCollectionReader._merge_with_filt(*args)` (base.py:226-232):
`d = deepcopy(self._filt); for v in args: d = dict(d, **v)`.  Later
arguments overwrite colliding fields of the accumulated dict. -/
def merge_with_filt (filt : Doc) (args : List Doc) : Doc :=
  args.foldl dictUpdate filt

/-- `MongoCollectionCollection._merge_with_filt(obj)` (base.py:66-67):
`dict(obj, **self.filter)`.  The store's filter overwrites colliding
fields of the caller's mapping. -/
def merge_with_filt_collection (filt obj : Doc) : Doc :=
  dictUpdate obj filt

/-- The mongo backend's filter matching restricted to the literal-equality
fragment used throughout the code under verification: a document matches a
filter iff every filter field is present in the document with an equal
value. -/
def matchesFilter (filt : Doc) (d : Doc) : Bool :=
  filt.all fun p =>
    match assocGet d p.1 with
    | some v => MVal.beq v p.2
    | none => false

/-- A mongo collection: its documents in insertion order. -/
abbrev Coll := List Doc

/-- The documents of `c` matching `filt`, in collection order
(the backend's `find` before projection). -/
def findDocs (c : Coll) (filt : Doc) : List Doc :=
  c.filter fun d => matchesFilter filt d

/-- A flat projection document: field name to include/exclude flag
(the shape `MongoCollectionReader.__init__` builds for `_data_fields`). -/
abbrev Projection := List (String × Bool)

/-- A projection is in inclusion mode iff any of its flags is true
(mongo semantics; `_id: false` entries are allowed in inclusion mode). -/
def projIsInclusion (p : Projection) : Bool :=
  p.any fun q => q.2

/-- Apply a (flat) projection to a document, per the mongo backend:
inclusion mode keeps exactly the fields flagged true plus `_id` unless
`_id` is flagged false; exclusion mode drops the fields flagged false.
`none` means no projection (full documents). -/
def applyProjection (proj : Option Projection) (d : Doc) : Doc :=
  match proj with
  | none => d
  | some p =>
    if projIsInclusion p then
      d.filter fun f =>
        if f.1 == "_id" then assocGet p "_id" != some false
        else assocGet p f.1 == some true
    else
      d.filter fun f => assocGet p f.1 != some false

/-- The backend's `find(filter=..., projection=...)`: matching documents in
collection order, shaped by the projection. -/
def find (c : Coll) (filt : Doc) (proj : Option Projection) : List Doc :=
  (findDocs c filt).map (applyProjection proj)

/-- The backend's `delete_one(filter)`: remove the first matching document;
also return the acknowledged deleted count (the `DeleteResult`'s `n`). -/
def delete_one (c : Coll) (filt : Doc) : Coll × Nat :=
  match c with
  | [] => ([], 0)
  | d :: rest =>
    if matchesFilter filt d then (rest, 1)
    else
      let p := delete_one rest filt
      (d :: p.1, p.2)

/-- The backend's `delete_many(filter)`: remove every matching document. -/
def delete_many (c : Coll) (filt : Doc) : Coll :=
  c.filter fun d => !matchesFilter filt d

/-- The backend assigns a fresh `_id` (first field) to an inserted document
that lacks one; a supplied `_id` is kept. -/
def ensureId (freshId : MVal) (d : Doc) : Doc :=
  if (assocGet d "_id").isSome then d else ("_id", freshId) :: d

/-- Document stored by the backend's `replace_one` when a match is found:
the replacement, inheriting the replaced document's `_id` when the
replacement carries none. -/
def replaceStored (old r : Doc) : Doc :=
  if (assocGet r "_id").isSome then r
  else
    match assocGet old "_id" with
    | some i => ("_id", i) :: r
    | none => r

/-- Replace the first document matching `filt` with `r` (backend
`replace_one` with a match). -/
def replaceFirst (c : Coll) (filt : Doc) (r : Doc) : Coll :=
  match c with
  | [] => []
  | d :: rest =>
    if matchesFilter filt d then replaceStored d r :: rest
    else d :: replaceFirst rest filt r

/-- Document inserted by the backend's upserting `replace_one` when nothing
matches: the replacement, with `_id` taken from the replacement itself, else
from a literal `_id` condition of the filter, else freshly generated. -/
def upsertedDoc (freshId : MVal) (filt r : Doc) : Doc :=
  if (assocGet r "_id").isSome then r
  else
    match assocGet filt "_id" with
    | some i => ("_id", i) :: r
    | none => ("_id", freshId) :: r

/-- The backend's `replace_one(filter, replacement, upsert=True)`. -/
def replace_one_upsert (freshId : MVal) (c : Coll) (filt r : Doc) : Coll :=
  if c.any (fun d => matchesFilter filt d) then replaceFirst c filt r
  else c ++ [upsertedDoc freshId filt r]

/-- Errors raised by the modelled operations (errors.py, util.py, Python
builtins, and the spec's error taxonomy in §7). -/
inductive MongoErr where
  | keyError (k : Doc)
  | keyNotUnique (k : Doc)
  | invalidValue
  | preconditionViolation
  | invalidOperation
  | notImplemented

/-- `MongoCollectionPersister.__setitem__` (base.py:318-326), collection
state only: `replace_one(filter=self._merge_with_filt(k),
replacement=self._merge_with_filt(k, v), upsert=True)`. -/
def setitem (freshId : MVal) (filt : Doc) (c : Coll) (k v : Doc) : Coll :=
  replace_one_upsert freshId c (merge_with_filt filt [k]) (merge_with_filt filt [k, v])

/-- `MongoCollectionReader.__getitem__` (base.py:201-204): the cursor over
`find(filter=self._merge_with_filt(k), projection=self._data_fields)`. -/
def getitem (filt : Doc) (data_fields : Option Projection) (c : Coll) (k : Doc) : List Doc :=
  find c (merge_with_filt filt [k]) data_fields

/-- `PostGet.single_value_fetch_with_unicity_validation` (trans.py:214-225):
`doc = next(cursor, None)`; if a document came, a second `next` decides
unicity (`KeyNotUniqueError` when it yields another document); no document
means `KeyError`.  The second component counts the documents actually pulled
from the cursor. -/
def single_value_fetch_with_unicity_validation (k : Doc) (cursor : List Doc) :
    Except MongoErr Doc × Nat :=
  match cursor with
  | [] => (.error (.keyError k), 0)
  | doc :: rest =>
    match rest with
    | [] => (.ok doc, 1)
    | _ :: _ => (.error (.keyNotUnique k), 2)

/-- Point lookup of the Unique-policy stores (`wrap_kvs` with postget
`single_value_fetch_with_unicity_validation`, stores.py:31-55 and 81-85):
the postget applied to `__getitem__`'s cursor. -/
def getitem_unique (filt : Doc) (data_fields : Option Projection) (c : Coll) (k : Doc) :
    Except MongoErr Doc :=
  (single_value_fetch_with_unicity_validation k (getitem filt data_fields c k)).1

/-- `MongoCollectionPersister.__delitem__` (base.py:328-333): a non-empty key
is passed to `delete_one(self._merge_with_filt(k))`; an empty key raises
`KeyError`.  Returns the new collection state and the deleted count. -/
def delitem (filt : Doc) (c : Coll) (k : Doc) : Except MongoErr (Coll × Nat) :=
  if k.length > 0 then .ok (delete_one c (merge_with_filt filt [k]))
  else .error (.keyError k)

/-- A pymongo write acknowledgement, as consumed by `normalize_result`
(trans.py:256-308): the result classes it dispatches on, plus a constructor
for any shape it does not recognize. -/
inductive RawResult where
  | insertOne (inserted_id : MVal)
  | insertMany (inserted_ids : List MVal)
  | deleteRes (n : Nat)
  | updateRes (n : Nat)
  | bulkWrite (inserted upserted modified deleted : Nat)
  | unrecognized

/-- The normalized `WriteOpResult` record (trans.py:244). -/
structure WriteOpResult where
  ok : Bool
  n : Nat
  ids : Option (List MVal)

/-- `normalize_result`'s result mapper (trans.py:267-293) applied to the
wrapped method's raw return value (`None` when the method returned nothing):
`None` passes through; each recognized acknowledgement shape yields
`{ok, n, ids?}` with `ok = n > 0`; a falsy `inserted_id`/`inserted_ids`
falls through every `elif` and any unrecognized shape raises
`NotImplementedError`. -/
def normalize_result (raw : Option RawResult) : Except MongoErr (Option WriteOpResult) :=
  match raw with
  | none => .ok none
  | some r =>
    match r with
    | .insertOne i =>
        if i.truthy then .ok (some ⟨true, 1, some [i]⟩) else .error .notImplemented
    | .insertMany ids =>
        if ids.isEmpty then .error .notImplemented
        else .ok (some ⟨decide (0 < ids.length), ids.length, some ids⟩)
    | .deleteRes n => .ok (some ⟨decide (0 < n), n, none⟩)
    | .updateRes n => .ok (some ⟨decide (0 < n), n, none⟩)
    | .bulkWrite i u m d =>
        .ok (some ⟨decide (0 < i + u + m + d), i + u + m + d, none⟩)
    | .unrecognized => .error .notImplemented

/-- The backend's `insert_many(docs)`: append each document with a generated
`_id` where missing; an empty document list is an `InvalidOperation` error
(pymongo refuses an empty bulk insert).  Returns the new state and the
`InsertManyResult`. -/
def insert_many (genId : Nat → MVal) (c : Coll) (docs : List Doc) :
    Except MongoErr (Coll × RawResult) :=
  if docs.isEmpty then .error .invalidOperation
  else
    let inserted := docs.enum.map fun p => ensureId (genId p.1) p.2
    .ok (c ++ inserted,
         .insertMany (inserted.map fun d => (assocGet d "_id").getD (.int 0)))

/-- `MongoCollectionPersister.extend` (base.py:341-346), before result
normalization: each value is merged with the filter and bulk-inserted;
an empty `values` list is falsy, so nothing is written and the method
returns `None`. -/
def persister_extend (genId : Nat → MVal) (filt : Doc) (c : Coll) (values : List Doc) :
    Coll × Option RawResult :=
  if values.isEmpty then (c, none)
  else
    let docs := values.map fun v => merge_with_filt filt [v]
    let inserted := docs.enum.map fun p => ensureId (genId p.1) p.2
    (c ++ inserted,
     some (.insertMany (inserted.map fun d => (assocGet d "_id").getD (.int 0))))

/-- True iff the field name starts with the operator-prefix character `$`
(Python `k.startswith('$')`). -/
def isOperatorPrefixed (k : String) : Bool :=
  k.data.head? == some '$'

/-- Scan of a document for operator-shaped content (§4.5): some field's
value is itself a mapping containing a key starting with the
operator-prefix character `$`. -/
def docHasOperatorValue (d : Doc) : Bool :=
  d.any fun p =>
    match p.2 with
    | .doc m => m.any fun q => isOperatorPrefixed q.1
    | _ => false

/-- Modelled from the spec: `_build_doc` is called by
`MongoCollectionMultipleDocsPersister.__setitem__` (stores.py:116) and by
`MongoBulkWritesMixin._execute_tracks` (tracking_methods.py:259-269) but is
defined nowhere under src/.  Per §4.5, it produces the fully merged document
(scope, then the given mappings) and rejects, with an InvalidValue-style
error, any document with a field whose value is a mapping containing
operator-shaped keys. -/
def build_doc (filt : Doc) (args : List Doc) : Except MongoErr Doc :=
  let d := merge_with_filt filt args
  if docHasOperatorValue d then .error .invalidValue else .ok d

/-- The value argument of `MongoCollectionMultipleDocsPersister.__setitem__`:
a single mapping, or a non-mapping collection of mappings. -/
inductive SetVal where
  | single (d : Doc)
  | many (ds : List Doc)

/-- `MongoCollectionMultipleDocsPersister.__setitem__` (stores.py:107-116):
`delete_many(self._merge_with_filt(k))` runs first; then
`_v = v if isinstance(v, Collection) else [v]` — a Mapping is itself a
`typing.Collection`, so a single mapping is NOT wrapped and iterating it
yields its keys (strings), for which `_build_doc` fails its
mapping-precondition (an empty mapping iterates to nothing, giving an empty
bulk insert); a list of mappings builds one merged document per element,
then `insert_many` runs.  Returns the collection state reached (the deletes
stand even when a later step raises) and the outcome. -/
def multi_setitem (genId : Nat → MVal) (filt : Doc) (c : Coll) (k : Doc) (v : SetVal) :
    Coll × Except MongoErr RawResult :=
  let c1 := delete_many c (merge_with_filt filt [k])
  let built : Except MongoErr (List Doc) :=
    match v with
    | .single d => if d.isEmpty then .ok [] else .error .preconditionViolation
    | .many ds => ds.mapM fun vi => build_doc filt [k, vi]
  match built with
  | .error e => (c1, .error e)
  | .ok docs =>
    match insert_many genId c1 docs with
    | .error e => (c1, .error e)
    | .ok (c2, ack) => (c2, .ok ack)

/-- A value of a (possibly nested) projection dict: a boolean leaf or a
nested dict, the shapes `flatten_dict_items` distinguishes with
`isinstance(v, dict)`. -/
inductive PVal where
  | leaf (b : Bool)
  | node (d : List (String × PVal))

/-- `flatten_dict_items(d, prefix)` (util.py:59-80): walk the entries in
order; a non-dict value is yielded at `prefix + k`, a dict value is recursed
into with `prefix + k + '.'`. -/
def flatten_dict_items : List (String × PVal) → String → List (String × Bool)
  | [], _ => []
  | (k, .leaf b) :: rest, pre => (pre ++ k, b) :: flatten_dict_items rest pre
  | (k, .node sub) :: rest, pre =>
      flatten_dict_items sub (pre ++ k ++ ".") ++ flatten_dict_items rest pre

/-- Python `dict(pairs)`: fold the pairs into a dict, later entries
updating earlier ones. -/
def dictOfPairs {α : Type} (l : List (String × α)) : List (String × α) :=
  l.foldl (fun acc p => assocSet acc p.1 p.2) []

/-- The identity field (constants.py: `ID = '_id'`). -/
def ID : String := "_id"

/-- The allow-map a non-dict iterable is turned into by
`normalize_projection` (util.py:134-140): `{field: True for field in
projection}` and, when the identity field is absent, `{ID: False}` is
added. -/
def fieldsToProjDict (fields : List String) : List (String × PVal) :=
  let p := dictOfPairs (fields.map fun f => (f, PVal.leaf true))
  if (assocGet p ID).isSome then p else p ++ [(ID, PVal.leaf false)]

/-- The `projection` argument of `normalize_projection`:
`None`, a string, a (sized) iterable of field names, or a dict. -/
inductive ProjSpec where
  | pnone
  | pstr (s : String)
  | plist (fields : List String)
  | pdict (d : List (String × PVal))

/-- The value `normalize_projection` returns: `None`, the empty iterable
passed through unchanged, or a flat projection dict. -/
inductive NormalizedProj where
  | none
  | emptyIterable
  | dict (d : List (String × Bool))

/-- `normalize_projection(projection)` (util.py:91-142): `None` passes
through; a string becomes a one-element tuple; an empty iterable is returned
as-is; any other non-dict iterable becomes the allow-map of
`fieldsToProjDict`; finally the (dict) result is returned as
`dict(flatten_dict_items(projection))`. -/
def normalize_projection : ProjSpec → NormalizedProj
  | .pnone => .none
  | .pstr s => .dict (dictOfPairs (flatten_dict_items (fieldsToProjDict [s]) ""))
  | .plist fields =>
      if fields.isEmpty then .emptyIterable
      else .dict (dictOfPairs (flatten_dict_items (fieldsToProjDict fields) ""))
  | .pdict d => .dict (dictOfPairs (flatten_dict_items d ""))

/-- `merge_projection_dicts` (util.py:83-88): the external
`linkup.key_aligned_val_op_with_forced_defaults` applied with `op=or_` and
both defaults `True`, per §4.1: the keys of both dicts are aligned (here:
`x`'s keys in order, then `y`'s remaining keys) and each merged value is the
OR of the two values, a missing side defaulting to `True`. -/
def merge_projection_dicts (x y : List (String × Bool)) : List (String × Bool) :=
  (x.map fun p => (p.1, p.2 || ((assocGet y p.1).getD true)))
    ++ ((y.filter fun q => (assocGet x q.1).isNone).map
          fun q => (q.1, ((assocGet x q.1).getD true) || q.2))

/-- `projection_union(projection_1, projection_2)` (util.py:145-166) on the
default `already_flattened=False` path: flatten both then merge. -/
def projection_union (projection_1 projection_2 : List (String × PVal)) :
    List (String × Bool) :=
  merge_projection_dicts (dictOfPairs (flatten_dict_items projection_1 ""))
    (dictOfPairs (flatten_dict_items projection_2 ""))

/-- Python `doc.pop(k)` on a dict modelled as an association list: the value
at the first occurrence of `k` and the document without that entry, or
`none` (a `KeyError`) when `k` is absent. -/
def popField : Doc → String → Option (MVal × Doc)
  | [], _ => none
  | (k1, v) :: rest, k =>
    if k1 == k then some (v, rest)
    else
      match popField rest k with
      | some (v2, r2) => some (v2, (k1, v) :: r2)
      | none => none

/-- The per-document body of `MongoItemsView.__iter__` (base.py:257-261):
`key = {k: doc.pop(k) for k in m._key_fields}; yield key, doc`, destructively
splitting the fetched document; `none` models the `KeyError` raised when a
key field is absent. -/
def itemsSplit : List String → Doc → Option (Doc × Doc)
  | [], d => some ([], d)
  | f :: fs, d =>
    match popField d f with
    | none => none
    | some (v, rest) =>
      match itemsSplit fs rest with
      | none => none
      | some (kp, vp) => some ((f, v) :: kp, vp)

/-- `MongoItemsView.__iter__` over the whole collection: the key/value split
of every fetched document, `none` when any of them lacks a key field. -/
def mongoItemsIter (filt : Doc) (items_projection : Option Projection)
    (key_fields : List String) (c : Coll) : Option (List (Doc × Doc)) :=
  (find c filt items_projection).mapM (itemsSplit key_fields)

/-- Keys of an association list are pairwise distinct (mongo documents and
Python dicts satisfy this by construction). -/
def NodupKeys {α : Type} (l : List (String × α)) : Prop :=
  (l.map Prod.fst).Nodup

theorem assocGet_eq_none_iff {α : Type} (l : List (String × α)) (k : String) :
    assocGet l k = none ↔ k ∉ l.map Prod.fst := by
  induction l with
  | nil => simp [assocGet]
  | cons p rest ih =>
    obtain ⟨k1, v⟩ := p
    by_cases h : k1 = k
    · subst h
      simp [assocGet]
    · simp [assocGet, h, ih, Ne.symm h]

theorem assocGet_isSome_iff {α : Type} (l : List (String × α)) (k : String) :
    (assocGet l k).isSome ↔ k ∈ l.map Prod.fst := by
  constructor
  · intro h
    by_contra hmem
    have := (assocGet_eq_none_iff l k).mpr hmem
    simp [this] at h
  · intro hmem
    cases hs : assocGet l k with
    | none => exact absurd ((assocGet_eq_none_iff l k).mp hs) (by simp [hmem])
    | some v => simp

theorem assocGet_of_mem_nodup {α : Type} {l : List (String × α)} {k : String} {v : α}
    (hnd : NodupKeys l) (hmem : (k, v) ∈ l) : assocGet l k = some v := by
  induction l with
  | nil => simp at hmem
  | cons p rest ih =>
    obtain ⟨k1, v1⟩ := p
    rcases List.mem_cons.mp hmem with h | h
    · obtain ⟨h1, h2⟩ := Prod.mk.injEq .. ▸ h
      simp [assocGet, h1.symm, h2]
    · have hk : k1 ≠ k := by
        intro he
        subst he
        have : k1 ∈ rest.map Prod.fst := List.mem_map.mpr ⟨(k1, v), h, rfl⟩
        exact (List.nodup_cons.mp hnd).1 this
      have hrest : NodupKeys rest := (List.nodup_cons.mp hnd).2
      simp [assocGet, hk, ih hrest h]

theorem assocSet_of_get_none {α : Type} {l : List (String × α)} {k : String} (v : α)
    (h : assocGet l k = none) : assocSet l k v = l ++ [(k, v)] := by
  induction l with
  | nil => simp [assocSet]
  | cons p rest ih =>
    obtain ⟨k1, v1⟩ := p
    by_cases hk : k1 = k
    · subst hk
      simp [assocGet] at h
    · simp [assocGet, hk] at h
      simp [assocSet, hk, ih h]

theorem assocGet_append {α : Type} (l1 l2 : List (String × α)) (k : String) :
    assocGet (l1 ++ l2) k = ((assocGet l1 k).rec (assocGet l2 k) fun v => some v) := by
  induction l1 with
  | nil => simp [assocGet]
  | cons p rest ih =>
    obtain ⟨k1, v1⟩ := p
    by_cases hk : k1 = k
    · subst hk
      simp [assocGet]
    · simp [assocGet, hk, ih]

theorem foldl_assocSet_fresh {α : Type} (l acc : List (String × α))
    (hfresh : ∀ k ∈ l.map Prod.fst, assocGet acc k = none) (hnd : NodupKeys l) :
    l.foldl (fun a p => assocSet a p.1 p.2) acc = acc ++ l := by
  induction l generalizing acc with
  | nil => simp
  | cons p rest ih =>
    obtain ⟨k, v⟩ := p
    have hk : assocGet acc k = none := hfresh k (by simp)
    have hstep : assocSet acc k v = acc ++ [(k, v)] := assocSet_of_get_none v hk
    have hnd' : NodupKeys rest := (List.nodup_cons.mp hnd).2
    have hknotin : k ∉ rest.map Prod.fst := (List.nodup_cons.mp hnd).1
    have hfresh' : ∀ k' ∈ rest.map Prod.fst, assocGet (acc ++ [(k, v)]) k' = none := by
      intro k' hk'
      rw [assocGet_append]
      have h1 : assocGet acc k' = none := hfresh k' (by simp [hk'])
      have h2 : k ≠ k' := fun he => hknotin (he ▸ hk')
      simp [h1, assocGet, h2]
    calc ((k, v) :: rest).foldl (fun a p => assocSet a p.1 p.2) acc
        = rest.foldl (fun a p => assocSet a p.1 p.2) (acc ++ [(k, v)]) := by
          simp [hstep]
      _ = (acc ++ [(k, v)]) ++ rest := ih (acc ++ [(k, v)]) hfresh' hnd'
      _ = acc ++ (k, v) :: rest := by simp

theorem dictOfPairs_eq_self {α : Type} (l : List (String × α)) (hnd : NodupKeys l) :
    dictOfPairs l = l := by
  have := foldl_assocSet_fresh l [] (fun k _ => by simp [assocGet]) hnd
  simpa [dictOfPairs] using this

theorem nodupKeys_assocSet {α : Type} (l : List (String × α)) (k : String) (v : α)
    (hnd : NodupKeys l) : NodupKeys (assocSet l k v) := by
  induction l with
  | nil => simp [assocSet, NodupKeys]
  | cons p rest ih =>
    obtain ⟨k1, v1⟩ := p
    have h1 := (List.nodup_cons.mp hnd).1
    have h2 := (List.nodup_cons.mp hnd).2
    by_cases hk : k1 = k
    · subst hk
      simpa [assocSet, NodupKeys] using hnd
    · have hrest := ih h2
      have hkeys : (assocSet rest k v).map Prod.fst = rest.map Prod.fst ∨
          (assocSet rest k v).map Prod.fst = rest.map Prod.fst ++ [k] := by
        clear ih hrest hnd h1 h2
        induction rest with
        | nil => simp [assocSet]
        | cons q rr ihr =>
          obtain ⟨q1, q2⟩ := q
          by_cases hq : q1 = k
          · subst hq
            simp [assocSet]
          · rcases ihr with hih | hih <;> simp [assocSet, hq, hih]
      have hrw : assocSet ((k1, v1) :: rest) k v = (k1, v1) :: assocSet rest k v := by
        simp [assocSet, hk]
      unfold NodupKeys
      have hrest' : (List.map Prod.fst (assocSet rest k v)).Nodup := hrest
      rw [hrw, List.map_cons, List.nodup_cons]
      rcases hkeys with hko | hko
      · rw [hko] at hrest' ⊢
        exact ⟨h1, hrest'⟩
      · rw [hko] at hrest' ⊢
        refine ⟨?_, hrest'⟩
        intro hmem
        rcases List.mem_append.mp hmem with hmm | hmm
        · exact h1 hmm
        · simp at hmm
          exact hk hmm

theorem nodupKeys_dictOfPairs {α : Type} (l : List (String × α)) :
    NodupKeys (dictOfPairs l) := by
  suffices h : ∀ acc : List (String × α), NodupKeys acc →
      NodupKeys (l.foldl (fun a p => assocSet a p.1 p.2) acc) by
    exact h [] (by simp [NodupKeys])
  induction l with
  | nil => intro acc hacc; simpa using hacc
  | cons p rest ih =>
    intro acc hacc
    simpa using ih (assocSet acc p.1 p.2) (nodupKeys_assocSet acc p.1 p.2 hacc)

/-- C1: the claim states that the merged filter behaves as a logical
conjunction of scope and caller mapping and never admits a document outside
the scope.  The code computes a dict-overwrite merge instead: in
`MongoCollectionReader._merge_with_filt` the caller's colliding field
replaces the scope's, so with scope `color: red` and caller mapping
`color: blue` the merged filter is `color: blue`, which the document
`color: blue` satisfies although it is outside the scope; in
`MongoCollectionCollection._merge_with_filt` the scope replaces the
caller's field, so the document `color: red` satisfies the merged filter
without matching the caller's mapping — neither behaves as a conjunction. -/
theorem merge_with_filt_escapes_scope :
    merge_with_filt [("color", MVal.str "red")] [[("color", MVal.str "blue")]]
      = [("color", MVal.str "blue")] ∧
    matchesFilter (merge_with_filt [("color", MVal.str "red")] [[("color", MVal.str "blue")]])
      [("color", MVal.str "blue")] = true ∧
    matchesFilter [("color", MVal.str "red")] [("color", MVal.str "blue")] = false ∧
    merge_with_filt_collection [("color", MVal.str "red")] [("color", MVal.str "blue")]
      = [("color", MVal.str "red")] ∧
    matchesFilter (merge_with_filt_collection [("color", MVal.str "red")] [("color", MVal.str "blue")])
      [("color", MVal.str "red")] = true ∧
    matchesFilter [("color", MVal.str "blue")] [("color", MVal.str "red")] = false :=
  ⟨rfl, rfl, rfl, rfl, rfl, rfl⟩

/-- C2: evaluation of `MongoCollectionMultipleDocsPersister.__setitem__` at
the failing input: collection holding the single document `s: a, n: 1`,
key `s: a`, value `[price: ($gt: 10)]`.  The spec-modelled `build_doc`
validation does reject the operator-shaped value, but the `delete_many`
issued before it already removed the matching document: the call errors
AND the collection is left changed (empty), contradicting the claimed
unchanged-state atomicity. -/
theorem multi_setitem_deletes_before_validation :
    multi_setitem (fun _ => MVal.int 0) []
        [[("s", MVal.str "a"), ("n", MVal.int 1)]]
        [("s", MVal.str "a")]
        (SetVal.many [[("price", MVal.doc [("$gt", MVal.int 10)])]])
      = ([], .error .invalidValue) ∧
    ([] : Coll) ≠ [[("s", MVal.str "a"), ("n", MVal.int 1)]] :=
  ⟨rfl, by simp⟩

/-- C3: evaluation of `MongoCollectionMultipleDocsPersister.__setitem__` at
the failing input: collection holding the single document `s: a, n: 1`,
key `s: a` and a SINGLE mapping value `n: 2` (which the method's own assert
admits).  Because a Mapping is itself a `typing.Collection`, the value is
not wrapped in a list; iterating it yields its key strings, so `_build_doc`
receives a string where a mapping is required and the call fails — after
`delete_many` already removed the matching document, so nothing is inserted
and the delete stands. -/
theorem multi_setitem_single_mapping_fails :
    multi_setitem (fun _ => MVal.int 0) []
        [[("s", MVal.str "a"), ("n", MVal.int 1)]]
        [("s", MVal.str "a")]
        (SetVal.single [("n", MVal.int 2)])
      = ([], .error .preconditionViolation) ∧
    ([] : Coll) ≠ [[("s", MVal.str "a"), ("n", MVal.int 1)]] :=
  ⟨rfl, by simp⟩

/-- C5 counterexample: `extend` on an empty sequence returns `None` (the
wrapped method writes nothing and returns nothing, and `normalize_result`
passes `None` through), not a normalized `WriteOpResult` record as the
claim states. -/
theorem extend_empty_returns_none :
    normalize_result (persister_extend (fun _ => MVal.int 0) [] [] []).2 = .ok none ∧
    (persister_extend (fun _ => MVal.int 0) [] [] []).1 = [] :=
  ⟨rfl, rfl⟩

/-- C9 counterexample: `__delitem__` with the non-empty key `a: 1` on an
empty collection succeeds and removes zero documents, not exactly one as
the claim states. -/
theorem delitem_removes_nothing_without_match :
    delitem [] [] [("a", MVal.int 1)] = .ok ([], 0) ∧ (0 : Nat) ≠ 1 :=
  ⟨rfl, by decide⟩

/-- C7 counterexample: on the default persister configuration (scope empty,
key fields `_id`, hence value projection `_id: False`), `set` of key
`_id: 1` and value `val: 2` followed by `get` of the same key under the
Unique policy returns `val: 2` — the value projection has stripped the key
field — whereas `merge(scope, k, v)` is `_id: 1, val: 2`. -/
theorem set_then_get_differs_from_merge :
    getitem_unique [] (some [("_id", false)])
        (setitem (MVal.int 99) [] [] [("_id", MVal.int 1)] [("val", MVal.int 2)])
        [("_id", MVal.int 1)]
      = .ok [("val", MVal.int 2)] ∧
    merge_with_filt [] [[("_id", MVal.int 1)], [("val", MVal.int 2)]]
      = [("_id", MVal.int 1), ("val", MVal.int 2)] ∧
    ([("val", MVal.int 2)] : Doc) ≠ [("_id", MVal.int 1), ("val", MVal.int 2)] :=
  ⟨rfl, rfl, by simp⟩

/-- C4: under the Unique cardinality policy, a zero-document cursor makes
the point lookup fail with `KeyError`, a one-document cursor returns that
document, a cursor with two or more documents raises `KeyNotUniqueError`,
and in every case at most two documents are pulled from the cursor (the
full match set is never materialized). -/
theorem single_value_fetch_with_unicity_validation_spec (k : Doc) (cursor : List Doc) :
    (cursor = [] →
      single_value_fetch_with_unicity_validation k cursor = (.error (.keyError k), 0)) ∧
    (∀ d, cursor = [d] →
      single_value_fetch_with_unicity_validation k cursor = (.ok d, 1)) ∧
    (∀ d d2 rest, cursor = d :: d2 :: rest →
      single_value_fetch_with_unicity_validation k cursor = (.error (.keyNotUnique k), 2)) ∧
    (single_value_fetch_with_unicity_validation k cursor).2 ≤ 2 ∧
    (single_value_fetch_with_unicity_validation k cursor).2 ≤ cursor.length := by
  refine ⟨?_, ?_, ?_, ?_, ?_⟩
  · rintro rfl
    rfl
  · rintro d rfl
    rfl
  · rintro d d2 rest rfl
    rfl
  · rcases cursor with _ | ⟨d, _ | ⟨d2, rest⟩⟩ <;>
      simp [single_value_fetch_with_unicity_validation]
  · rcases cursor with _ | ⟨d, _ | ⟨d2, rest⟩⟩ <;>
      simp [single_value_fetch_with_unicity_validation]

/-- Witness for C4 at a one-document cursor. -/
theorem single_value_fetch_with_unicity_validation_spec_witness :
    single_value_fetch_with_unicity_validation [] [[("a", MVal.int 1)]]
      = (.ok [("a", MVal.int 1)], 1) :=
  (single_value_fetch_with_unicity_validation_spec [] [[("a", MVal.int 1)]]).2.1
    [("a", MVal.int 1)] rfl

/-- C5 (amended): `normalize_result` maps every recognized acknowledgement
shape to the record with `n` the affected count and `ok = n > 0`
(single insert: 1; bulk insert: the inserted ids' count; delete/update: the
acknowledged `n`; bulk write: inserted + upserted + modified + deleted),
never returning the backend-native object; a falsy inserted id, an empty
inserted-ids list or an unrecognized shape is a fatal
`NotImplementedError`; and `extend` on an empty sequence performs no write
and yields `None` rather than a record. -/
theorem normalize_result_spec :
    (normalize_result none = .ok none) ∧
    (∀ i, MVal.truthy i = true →
      normalize_result (some (.insertOne i)) = .ok (some ⟨true, 1, some [i]⟩)) ∧
    (∀ i, MVal.truthy i = false →
      normalize_result (some (.insertOne i)) = .error .notImplemented) ∧
    (∀ ids, ids ≠ [] →
      normalize_result (some (.insertMany ids))
        = .ok (some ⟨decide (0 < ids.length), ids.length, some ids⟩)) ∧
    (normalize_result (some (.insertMany [])) = .error .notImplemented) ∧
    (∀ n, normalize_result (some (.deleteRes n)) = .ok (some ⟨decide (0 < n), n, none⟩)) ∧
    (∀ n, normalize_result (some (.updateRes n)) = .ok (some ⟨decide (0 < n), n, none⟩)) ∧
    (∀ i u m d, normalize_result (some (.bulkWrite i u m d))
      = .ok (some ⟨decide (0 < i + u + m + d), i + u + m + d, none⟩)) ∧
    (normalize_result (some .unrecognized) = .error .notImplemented) ∧
    (∀ raw res, normalize_result (some raw) = .ok (some res) → res.ok = decide (0 < res.n)) ∧
    (∀ genId filt c,
      (persister_extend genId filt c []).2 = none ∧ (persister_extend genId filt c []).1 = c) := by
  refine ⟨rfl, ?_, ?_, ?_, rfl, fun n => rfl, fun n => rfl, fun i u m d => rfl, rfl, ?_, ?_⟩
  · intro i hi
    simp [normalize_result, hi]
  · intro i hi
    simp [normalize_result, hi]
  · intro ids hids
    simp [normalize_result, hids]
  · intro raw res h
    cases raw with
    | insertOne i =>
      by_cases hi : i.truthy
      · rw [show normalize_result (some (.insertOne i))
            = .ok (some (⟨true, 1, some [i]⟩ : WriteOpResult)) from by
              simp [normalize_result, hi]] at h
        injection h with h2
        injection h2 with h3
        subst h3
        rfl
      · simp [normalize_result, hi] at h
    | insertMany ids =>
      by_cases hids : ids.isEmpty
      · simp [normalize_result, hids] at h
      · rw [show normalize_result (some (.insertMany ids))
            = .ok (some (⟨decide (0 < ids.length), ids.length, some ids⟩ : WriteOpResult)) from by
              simp [normalize_result, hids]] at h
        injection h with h2
        injection h2 with h3
        subst h3
        rfl
    | deleteRes n =>
      have h' : (Except.ok (some (⟨decide (0 < n), n, none⟩ : WriteOpResult))
          : Except MongoErr (Option WriteOpResult)) = .ok (some res) := h
      injection h' with h2
      injection h2 with h3
      subst h3
      rfl
    | updateRes n =>
      have h' : (Except.ok (some (⟨decide (0 < n), n, none⟩ : WriteOpResult))
          : Except MongoErr (Option WriteOpResult)) = .ok (some res) := h
      injection h' with h2
      injection h2 with h3
      subst h3
      rfl
    | bulkWrite i u m d =>
      have h' : (Except.ok (some (⟨decide (0 < i + u + m + d), i + u + m + d, none⟩
            : WriteOpResult)) : Except MongoErr (Option WriteOpResult)) = .ok (some res) := h
      injection h' with h2
      injection h2 with h3
      subst h3
      rfl
    | unrecognized => simp [normalize_result] at h
  · intro genId filt c
    exact ⟨rfl, rfl⟩

/-- Witness for C5 at a two-document bulk insert acknowledgement. -/
theorem normalize_result_spec_witness :
    normalize_result (some (.insertMany [MVal.int 5, MVal.int 6]))
      = .ok (some ⟨true, 2, some [MVal.int 5, MVal.int 6]⟩) :=
  (normalize_result_spec.2.2.2.1 [MVal.int 5, MVal.int 6] (by simp)).trans rfl

theorem delete_one_eq (c : Coll) (f : Doc) :
    delete_one c f = (c.eraseP (fun d => matchesFilter f d),
      if c.any (fun d => matchesFilter f d) then 1 else 0) := by
  induction c with
  | nil => rfl
  | cons d rest ih =>
    by_cases h : matchesFilter f d
    · simp [delete_one, h, List.eraseP_cons, List.any_cons]
    · simp [delete_one, h, List.eraseP_cons, List.any_cons, ih]

/-- C9 (amended): `__delitem__` rejects an empty key with a `KeyError` and
touches nothing; for a non-empty key it removes the FIRST document matching
the scope-merged key filter when one exists (deleted count 1) and removes
nothing when no document matches (deleted count 0) — never more than one
document. -/
theorem delitem_spec (filt : Doc) (c : Coll) (k : Doc) :
    (k = [] → delitem filt c k = .error (.keyError k)) ∧
    (k ≠ [] → delitem filt c k
      = .ok (c.eraseP (fun d => matchesFilter (merge_with_filt filt [k]) d),
          if c.any (fun d => matchesFilter (merge_with_filt filt [k]) d) then 1 else 0)) := by
  constructor
  · rintro rfl
    rfl
  · intro hk
    have hlen : 0 < k.length := List.length_pos.mpr hk
    simp only [delitem, if_pos hlen, delete_one_eq]

/-- Witness for C9 at a matching non-empty key: exactly the one matching
document is removed. -/
theorem delitem_spec_witness :
    delitem [] [[("a", MVal.int 1)], [("b", MVal.int 2)]] [("a", MVal.int 1)]
      = .ok ([[("b", MVal.int 2)]], 1) :=
  ((delitem_spec [] [[("a", MVal.int 1)], [("b", MVal.int 2)]] [("a", MVal.int 1)]).2
    (by simp)).trans (by rfl)

theorem merge_projection_dicts_self (x : List (String × Bool)) (hnd : NodupKeys x) :
    merge_projection_dicts x x = x := by
  unfold merge_projection_dicts
  have h1 : (x.filter fun q => (assocGet x q.1).isNone) = [] := by
    rw [List.filter_eq_nil_iff]
    intro q hq
    have hg := assocGet_of_mem_nodup hnd (show (q.1, q.2) ∈ x by simpa using hq)
    simp [hg]
  rw [h1]
  simp only [List.map_nil, List.append_nil]
  have h2 : ∀ p ∈ x, (p.1, p.2 || ((assocGet x p.1).getD true)) = id p := by
    intro p hp
    have hg := assocGet_of_mem_nodup hnd (show (p.1, p.2) ∈ x by simpa using hp)
    simp [hg]
  rw [List.map_congr_left h2, List.map_id]

/-- C8: for every (possibly nested, boolean-leaved) projection dict `p`,
`projection_union(p, p)` equals the dot-path flattening of `p`: the merged
keys are exactly the flattened keys and each merged value is the OR of the
flattened value with itself, i.e. the flattened value — union is idempotent
under repetition. -/
theorem projection_union_self (p : List (String × PVal)) :
    projection_union p p = dictOfPairs (flatten_dict_items p "") :=
  merge_projection_dicts_self _ (nodupKeys_dictOfPairs _)

theorem string_empty_append (s : String) : "" ++ s = s := by
  cases s
  rfl

theorem flatten_leaf_map (l : List (String × Bool)) (pre : String) :
    flatten_dict_items (l.map fun p => (p.1, PVal.leaf p.2)) pre
      = l.map fun p => (pre ++ p.1, p.2) := by
  induction l with
  | nil => simp [flatten_dict_items]
  | cons q rest ih => simp [flatten_dict_items, ih]

theorem fieldsToProjDict_def (fields : List String) :
    fieldsToProjDict fields
      = (if (assocGet (dictOfPairs (fields.map fun f => (f, PVal.leaf true))) ID).isSome
         then dictOfPairs (fields.map fun f => (f, PVal.leaf true))
         else dictOfPairs (fields.map fun f => (f, PVal.leaf true)) ++ [(ID, PVal.leaf false)]) :=
  rfl

theorem dictOfPairs_flatten_leaf (L : List (String × Bool)) (hnd : NodupKeys L) :
    dictOfPairs (flatten_dict_items (L.map fun p => (p.1, PVal.leaf p.2)) "") = L := by
  rw [flatten_leaf_map]
  have h : ∀ p ∈ L, (("" ++ p.1 : String), p.2) = id p := by
    intro p hp
    simp [string_empty_append]
  rw [List.map_congr_left h, List.map_id, dictOfPairs_eq_self L hnd]

theorem fieldsToProjDict_not_mem (fields : List String) (hnd : fields.Nodup)
    (hid : ID ∉ fields) :
    fieldsToProjDict fields
      = ((fields.map fun f => (f, true)) ++ [(ID, false)]).map fun p => (p.1, PVal.leaf p.2) := by
  have hkeys : (fields.map fun f => (f, PVal.leaf true)).map Prod.fst = fields := by
    rw [List.map_map]
    exact List.map_id fields
  have hnd' : NodupKeys (fields.map fun f => (f, PVal.leaf true)) := by
    unfold NodupKeys
    rw [hkeys]
    exact hnd
  have hget : assocGet (fields.map fun f => (f, PVal.leaf true)) ID = none := by
    rw [assocGet_eq_none_iff, hkeys]
    exact hid
  rw [fieldsToProjDict_def, dictOfPairs_eq_self _ hnd', hget]
  simp [List.map_map]

theorem fieldsToProjDict_mem (fields : List String) (hnd : fields.Nodup)
    (hid : ID ∈ fields) :
    fieldsToProjDict fields = (fields.map fun f => (f, true)).map fun p => (p.1, PVal.leaf p.2) := by
  have hkeys : (fields.map fun f => (f, PVal.leaf true)).map Prod.fst = fields := by
    rw [List.map_map]
    exact List.map_id fields
  have hnd' : NodupKeys (fields.map fun f => (f, PVal.leaf true)) := by
    unfold NodupKeys
    rw [hkeys]
    exact hnd
  have hget : (assocGet (fields.map fun f => (f, PVal.leaf true)) ID).isSome := by
    rw [assocGet_isSome_iff, hkeys]
    exact hid
  rw [fieldsToProjDict_def, dictOfPairs_eq_self _ hnd', if_pos hget]
  simp [List.map_map]

/-- C6: `normalize_projection` maps `None` to `None`; a string to the same
result as its one-element list; a non-empty iterable of field names without
the identity field to the allow-map of those fields plus an explicit
identity-field exclusion (in particular `['a','b']` yields
`a: true, b: true, _id: false`); an iterable containing the identity field
gets no exclusion entry; an empty iterable is returned as-is; and a mapping
is returned as its dot-path flattening with boolean leaves preserved. -/
theorem normalize_projection_spec :
    (normalize_projection .pnone = .none) ∧
    (∀ s, normalize_projection (.pstr s) = normalize_projection (.plist [s])) ∧
    (normalize_projection (.plist ["a", "b"])
      = .dict [("a", true), ("b", true), ("_id", false)]) ∧
    (∀ fields, fields ≠ [] → fields.Nodup → ID ∉ fields →
      normalize_projection (.plist fields)
        = .dict ((fields.map fun f => (f, true)) ++ [(ID, false)])) ∧
    (∀ fields, fields ≠ [] → fields.Nodup → ID ∈ fields →
      normalize_projection (.plist fields) = .dict (fields.map fun f => (f, true))) ∧
    (normalize_projection (.plist []) = .emptyIterable) ∧
    (normalize_projection (.pdict [("name", .node [("first", .leaf true), ("last", .leaf false)]),
        ("age", .leaf true)])
      = .dict [("name.first", true), ("name.last", false), ("age", true)]) := by
  refine ⟨rfl, ?_, ?_, ?_, ?_, rfl, ?_⟩
  · intro s
    simp [normalize_projection]
  · simp only [normalize_projection]
    rw [show fieldsToProjDict ["a", "b"]
        = [("a", PVal.leaf true), ("b", PVal.leaf true), ("_id", PVal.leaf false)] from rfl]
    rw [show flatten_dict_items
          [("a", PVal.leaf true), ("b", PVal.leaf true), ("_id", PVal.leaf false)] ""
        = [("a", true), ("b", true), ("_id", false)] from by
      simp only [flatten_dict_items]
      rfl]
    rfl
  · intro fields hne hnd hid
    have hL : NodupKeys ((fields.map fun f => (f, true)) ++ [(ID, false)]) := by
      unfold NodupKeys
      rw [List.map_append, List.map_map]
      rw [show (Prod.fst ∘ fun f => ((f : String), true)) = id from rfl, List.map_id]
      rw [List.nodup_append]
      refine ⟨hnd, List.nodup_singleton ID, ?_⟩
      intro a ha hb
      simp at hb
      exact hid (hb ▸ ha)
    simp only [normalize_projection]
    rw [if_neg (by simpa [List.isEmpty_iff] using hne)]
    rw [fieldsToProjDict_not_mem fields hnd hid, dictOfPairs_flatten_leaf _ hL]
  · intro fields hne hnd hid
    have hL : NodupKeys (fields.map fun f => (f, true)) := by
      unfold NodupKeys
      rw [List.map_map]
      rw [show (Prod.fst ∘ fun f => ((f : String), true)) = id from rfl, List.map_id]
      exact hnd
    simp only [normalize_projection]
    rw [if_neg (by simpa [List.isEmpty_iff] using hne)]
    rw [fieldsToProjDict_mem fields hnd hid, dictOfPairs_flatten_leaf _ hL]
  · simp only [normalize_projection]
    rw [show flatten_dict_items
          [("name", PVal.node [("first", PVal.leaf true), ("last", PVal.leaf false)]),
           ("age", PVal.leaf true)] ""
        = [("name.first", true), ("name.last", false), ("age", true)] from by
      simp only [flatten_dict_items]
      rfl]
    rfl

/-- Witness for C6 at the field list `['x', 'y']`. -/
theorem normalize_projection_spec_witness :
    normalize_projection (.plist ["x", "y"])
      = .dict [("x", true), ("y", true), (ID, false)] :=
  (normalize_projection_spec.2.2.2.1 ["x", "y"] (by simp) (by simp)
    (by simp [ID])).trans rfl

/-- C7 (amended): when no document yet matches the scope-merged key filter
and the merged document `merge(scope, k, v)` (with a backend identity field
added when it lacks one) itself satisfies that filter, `set(k, v)` followed
immediately by `get(k)` under the Unique policy returns that merged
document as shaped by the store's value projection — not the bare
`merge(scope, k, v)`, whose key-projection fields the value projection
strips. -/
theorem set_then_get_unique_roundtrip (freshId : MVal) (filt : Doc)
    (data_fields : Option Projection) (c : Coll) (k v : Doc)
    (hnomatch : findDocs c (merge_with_filt filt [k]) = [])
    (hmatch : matchesFilter (merge_with_filt filt [k])
      (upsertedDoc freshId (merge_with_filt filt [k]) (merge_with_filt filt [k, v])) = true) :
    getitem_unique filt data_fields (setitem freshId filt c k v) k
      = .ok (applyProjection data_fields
          (upsertedDoc freshId (merge_with_filt filt [k]) (merge_with_filt filt [k, v]))) := by
  have hany : c.any (fun d => matchesFilter (merge_with_filt filt [k]) d) = false := by
    rw [List.any_eq_false]
    intro d hd
    have := List.filter_eq_nil_iff.mp hnomatch d hd
    simpa using this
  have hstate : setitem freshId filt c k v
      = c ++ [upsertedDoc freshId (merge_with_filt filt [k]) (merge_with_filt filt [k, v])] := by
    unfold setitem replace_one_upsert
    rw [hany]
    simp
  rw [hstate]
  unfold getitem_unique getitem find findDocs
  rw [List.filter_append]
  unfold findDocs at hnomatch
  rw [hnomatch, List.nil_append, List.filter_cons_of_pos (by simpa using hmatch),
    List.filter_nil]
  rfl

/-- Witness for C7 at the counterexample's configuration: the round trip
returns the value-projected merge. -/
theorem set_then_get_unique_roundtrip_witness :
    getitem_unique [] (some [("_id", false)])
        (setitem (MVal.int 99) [] [] [("_id", MVal.int 1)] [("val", MVal.int 2)])
        [("_id", MVal.int 1)]
      = .ok (applyProjection (some [("_id", false)])
          (upsertedDoc (MVal.int 99) (merge_with_filt [] [[("_id", MVal.int 1)]])
            (merge_with_filt [] [[("_id", MVal.int 1)], [("val", MVal.int 2)]]))) :=
  set_then_get_unique_roundtrip (MVal.int 99) [] (some [("_id", false)]) []
    [("_id", MVal.int 1)] [("val", MVal.int 2)] rfl rfl

theorem nodupKeys_filter {α : Type} (pred : String × α → Bool) {l : List (String × α)}
    (h : NodupKeys l) : NodupKeys (l.filter pred) :=
  h.sublist (List.Sublist.map Prod.fst (List.filter_sublist l))

theorem popField_eq_none {d : Doc} {f : String} (h : assocGet d f = none) :
    popField d f = none := by
  induction d with
  | nil => rfl
  | cons p rest ih =>
    obtain ⟨k1, v1⟩ := p
    by_cases hk : k1 = f
    · subst hk
      simp [assocGet] at h
    · simp [assocGet, hk] at h
      simp [popField, hk, ih h]

theorem popField_some_of_nodup {d : Doc} {f : String} {v : MVal} (hnd : NodupKeys d)
    (h : assocGet d f = some v) :
    popField d f = some (v, d.filter fun p => p.1 != f) := by
  induction d with
  | nil => simp [assocGet] at h
  | cons p rest ih =>
    obtain ⟨k1, v1⟩ := p
    by_cases hk : k1 = f
    · subst hk
      have hv1 : v1 = v := by simpa [assocGet] using h
      subst hv1
      have hknotin : k1 ∉ rest.map Prod.fst := (List.nodup_cons.mp hnd).1
      have hfilter : rest.filter (fun p => p.1 != k1) = rest := by
        rw [List.filter_eq_self]
        intro a ha
        have hne : a.1 ≠ k1 := fun he => hknotin (he ▸ List.mem_map_of_mem Prod.fst ha)
        simpa using hne
      simp [popField, List.filter_cons, hfilter]
    · have hnd' : NodupKeys rest := (List.nodup_cons.mp hnd).2
      simp [assocGet, hk] at h
      simp [popField, hk, ih hnd' h, List.filter_cons]

theorem assocGet_filter_ne {g f : String} (hne : g ≠ f) (d : Doc) :
    assocGet (d.filter fun p => p.1 != f) g = assocGet d g := by
  induction d with
  | nil => rfl
  | cons p rest ih =>
    obtain ⟨k1, v1⟩ := p
    by_cases hk : k1 = f
    · subst hk
      have hkg : ¬ k1 = g := fun he => hne he.symm
      simp [List.filter_cons, assocGet, hkg, ih]
    · by_cases hkg : k1 = g <;> simp [List.filter_cons, assocGet, hk, hkg, hne, ih]

theorem assocGet_filter_banned {kf : List String} {g : String} (hg : g ∈ kf) (d : Doc) :
    assocGet (d.filter fun p => decide (p.1 ∉ kf)) g = none := by
  induction d with
  | nil => rfl
  | cons p rest ih =>
    obtain ⟨k1, v1⟩ := p
    by_cases hp : k1 ∈ kf
    · rw [List.filter_cons_of_neg (by simpa using hp)]
      exact ih
    · rw [List.filter_cons_of_pos (by simpa using hp)]
      have hne : ¬ k1 = g := fun h => hp (h ▸ hg)
      rw [show assocGet ((k1, v1) :: List.filter (fun p => decide (p.1 ∉ kf)) rest) g
          = assocGet (List.filter (fun p => decide (p.1 ∉ kf)) rest) g from by
        simp [assocGet, hne]]
      exact ih

theorem assocGet_filter_allowed {kf : List String} {g : String} (hg : g ∉ kf) (d : Doc) :
    assocGet (d.filter fun p => decide (p.1 ∉ kf)) g = assocGet d g := by
  induction d with
  | nil => rfl
  | cons p rest ih =>
    obtain ⟨k1, v1⟩ := p
    by_cases hp : k1 ∈ kf
    · rw [List.filter_cons_of_neg (by simpa using hp)]
      have hne : ¬ k1 = g := fun h => hg (h ▸ hp)
      rw [ih]
      simp [assocGet, hne]
    · rw [List.filter_cons_of_pos (by simpa using hp)]
      by_cases hkg : k1 = g
      · simp [assocGet, hkg]
      · rw [show assocGet ((k1, v1) :: List.filter (fun p => decide (p.1 ∉ kf)) rest) g
            = assocGet (List.filter (fun p => decide (p.1 ∉ kf)) rest) g from by
          simp [assocGet, hkg]]
        rw [ih]
        simp [assocGet, hkg]

theorem decide_not_mem_cons (x f : String) (fs : List String) :
    decide (x ∉ f :: fs) = ((x != f) && decide (x ∉ fs)) := by
  by_cases h1 : x = f <;> by_cases h2 : x ∈ fs <;> simp [h1, h2]

theorem itemsSplit_success (kf : List String) (d : Doc) (hkf : kf.Nodup)
    (hnd : NodupKeys d) (hall : ∀ f ∈ kf, (assocGet d f).isSome) :
    ∃ kp vp, itemsSplit kf d = some (kp, vp) ∧
      kp.map Prod.fst = kf ∧
      (∀ f ∈ kf, assocGet kp f = assocGet d f) ∧
      vp = d.filter (fun p => decide (p.1 ∉ kf)) := by
  induction kf generalizing d with
  | nil =>
    refine ⟨[], d, rfl, rfl, by simp, ?_⟩
    simp
  | cons f fs ih =>
    have hfin := hall f (by simp)
    obtain ⟨v, hv⟩ := Option.isSome_iff_exists.mp hfin
    have hpop := popField_some_of_nodup hnd hv
    have hnotfs : f ∉ fs := (List.nodup_cons.mp hkf).1
    have hkf' : fs.Nodup := (List.nodup_cons.mp hkf).2
    have hnd' : NodupKeys (d.filter fun p => p.1 != f) := nodupKeys_filter _ hnd
    have hall' : ∀ g ∈ fs, (assocGet (d.filter fun p => p.1 != f) g).isSome := by
      intro g hg
      have hne : g ≠ f := fun he => hnotfs (he ▸ hg)
      rw [assocGet_filter_ne hne]
      exact hall g (by simp [hg])
    obtain ⟨kp', vp', h1, h2, h3, h4⟩ :=
      ih (d.filter fun p => p.1 != f) hkf' hnd' hall'
    refine ⟨(f, v) :: kp', vp', ?_, ?_, ?_, ?_⟩
    · simp [itemsSplit, hpop, h1]
    · simp [h2]
    · intro g hg
      rcases List.mem_cons.mp hg with hgf | hgfs
      · subst hgf
        simp [assocGet, hv]
      · have hne : f ≠ g := fun he => hnotfs (he ▸ hgfs)
        rw [show assocGet ((f, v) :: kp') g = assocGet kp' g by simp [assocGet, hne]]
        rw [h3 g hgfs, assocGet_filter_ne (fun he => hne he.symm)]
    · rw [h4, List.filter_filter]
      refine List.filter_congr ?_
      intro p hp
      rw [decide_not_mem_cons, Bool.and_comm]

theorem itemsSplit_failure (kf : List String) : ∀ (d : Doc), NodupKeys d →
    (∃ f ∈ kf, assocGet d f = none) → itemsSplit kf d = none := by
  induction kf with
  | nil =>
    intro d _ hmiss
    simp at hmiss
  | cons f fs ih =>
    intro d hnd hmiss
    obtain ⟨g, hg, hgnone⟩ := hmiss
    cases hget : assocGet d f with
    | none =>
      simp [itemsSplit, popField_eq_none hget]
    | some v =>
      have hpop := popField_some_of_nodup hnd hget
      have hne : g ≠ f := fun he => by
        rw [he, hget] at hgnone
        exact Option.noConfusion hgnone
      have hgfs : g ∈ fs := by
        rcases List.mem_cons.mp hg with h | h
        · exact absurd h hne
        · exact h
      have hnd' : NodupKeys (d.filter fun p => p.1 != f) := nodupKeys_filter _ hnd
      have hrest : assocGet (d.filter fun p => p.1 != f) g = none := by
        rw [assocGet_filter_ne hne]
        exact hgnone
      simp [itemsSplit, hpop, ih _ hnd' ⟨g, hgfs, hrest⟩]

theorem nodupKeys_applyProjection (proj : Option Projection) {d : Doc} (h : NodupKeys d) :
    NodupKeys (applyProjection proj d) := by
  cases proj with
  | none => exact h
  | some p =>
    show NodupKeys (if projIsInclusion p then
        d.filter fun f =>
          if f.1 == "_id" then assocGet p "_id" != some false
          else assocGet p f.1 == some true
      else d.filter fun f => assocGet p f.1 != some false)
    by_cases hi : projIsInclusion p = true
    · rw [if_pos hi]
      exact nodupKeys_filter _ h
    · rw [if_neg hi]
      exact nodupKeys_filter _ h

theorem mem_find {c : Coll} {filt : Doc} {proj : Option Projection} {d : Doc}
    (h : d ∈ find c filt proj) : ∃ raw ∈ c, d = applyProjection proj raw := by
  unfold find at h
  obtain ⟨raw, hraw, hmap⟩ := List.mem_map.mp h
  exact ⟨raw, (List.mem_filter.mp hraw).1, hmap.symm⟩

/-- C10: for every document fetched during `items()` iteration (with unique
field names per document, as mongo guarantees, and distinct configured key
fields), the yielded pair destructively partitions it: when every key field
is present, the key part's fields are exactly the key fields with the
document's values, the value part is exactly the remaining fetched fields
(in order), the parts are field-disjoint and together re-compose the
document; when some key field is absent, the split raises `KeyError`
(models as `none`) instead of yielding a pair. -/
theorem mongo_items_view_split_spec (filt : Doc) (proj : Option Projection) (c : Coll)
    (key_fields : List String) (d : Doc)
    (hc : ∀ dd ∈ c, NodupKeys dd) (hkf : key_fields.Nodup) (hd : d ∈ find c filt proj) :
    ((∀ f ∈ key_fields, (assocGet d f).isSome) →
      ∃ kp vp, itemsSplit key_fields d = some (kp, vp) ∧
        kp.map Prod.fst = key_fields ∧
        (∀ f ∈ key_fields, assocGet kp f = assocGet d f) ∧
        vp = d.filter (fun p => decide (p.1 ∉ key_fields)) ∧
        (∀ f ∈ key_fields, assocGet vp f = none) ∧
        (∀ f, assocGet d f = if f ∈ key_fields then assocGet kp f else assocGet vp f)) ∧
    ((∃ f ∈ key_fields, assocGet d f = none) → itemsSplit key_fields d = none) := by
  have hnd : NodupKeys d := by
    obtain ⟨raw, hraw, hdef⟩ := mem_find hd
    rw [hdef]
    exact nodupKeys_applyProjection proj (hc raw hraw)
  constructor
  · intro hall
    obtain ⟨kp, vp, h1, h2, h3, h4⟩ := itemsSplit_success key_fields d hkf hnd hall
    refine ⟨kp, vp, h1, h2, h3, h4, ?_, ?_⟩
    · intro f hf
      rw [h4]
      exact assocGet_filter_banned hf d
    · intro f
      by_cases hf : f ∈ key_fields
      · rw [if_pos hf, h3 f hf]
      · rw [if_neg hf, h4, assocGet_filter_allowed hf]
  · exact itemsSplit_failure key_fields d hnd

/-- Witness for C10: the fetched document with fields `_id, x` splits into
key part `_id` and value part `x`. -/
theorem mongo_items_view_split_spec_witness :
    ∃ kp vp, itemsSplit ["_id"] [("_id", MVal.int 1), ("x", MVal.int 2)] = some (kp, vp) ∧
      kp.map Prod.fst = ["_id"] ∧
      (∀ f ∈ ["_id"], assocGet kp f = assocGet [("_id", MVal.int 1), ("x", MVal.int 2)] f) ∧
      vp = [("_id", MVal.int 1), ("x", MVal.int 2)].filter
        (fun p => decide (p.1 ∉ ["_id"])) ∧
      (∀ f ∈ ["_id"], assocGet vp f = none) ∧
      (∀ f, assocGet [("_id", MVal.int 1), ("x", MVal.int 2)] f
        = if f ∈ ["_id"] then assocGet kp f else assocGet vp f) :=
  (mongo_items_view_split_spec [] none [[("_id", MVal.int 1), ("x", MVal.int 2)]]
    ["_id"] [("_id", MVal.int 1), ("x", MVal.int 2)]
    (by
      intro dd hdd
      rw [List.mem_singleton.mp hdd]
      simp [NodupKeys])
    (by simp)
    (by
      rw [show find [[("_id", MVal.int 1), ("x", MVal.int 2)]] [] none
          = [[("_id", MVal.int 1), ("x", MVal.int 2)]] from rfl]
      simp)).1
    (by
      intro f hf
      rw [List.mem_singleton.mp hf]
      rfl)

end Mongodol
